import Mathlib

/-!
Verification of the miniature pattern-matching engine
(`exercises/08_finale/exercise/src/main.rs`).

Rust `&str` values are modelled as their sequence of Unicode codepoints
(`List Char`); byte positions and byte lengths are tracked explicitly via
`Char.utf8Size`, so byte slicing (`&s[a..b]`), `str::len` and
`char::len_utf8` are all faithfully represented.
-/

namespace PatternMatch

/-- A Rust `&str`, modelled as its sequence of Unicode codepoints. -/
abbrev Str := List Char

/-- The UTF-8 byte length of a string: Rust `str::len`. -/
def utf8Len (s : Str) : Nat := (s.map Char.utf8Size).sum

/-- Rust `&s[..n]`: the first `n` bytes of `s`.  The program only ever
slices at codepoint boundaries, so the count is consumed codepoint by
codepoint. -/
def byteTake : Str → Nat → Str
  | [], _ => []
  | c :: cs, n => if n = 0 then [] else c :: byteTake cs (n - c.utf8Size)

/-- Rust `&s[n..]`: `s` with its first `n` bytes removed. -/
def byteDrop : Str → Nat → Str
  | [], _ => []
  | c :: cs, n => if n = 0 then c :: cs else byteDrop cs (n - c.utf8Size)

/-- Rust `&s[a..b]`. -/
def strSlice (s : Str) (a b : Nat) : Str := byteTake (byteDrop s a) (b - a)

/-- The `MatcherToken<'s>` enum. -/
inductive MatcherToken where
  | RawText (text : Str)
  | OneOfText (choices : List Str)
  | WildCard
deriving DecidableEq

/-- The `for` loop in the `OneOfText` arm of `MatcherToken::match_string`:
scan the choices in list order, remembering the byte length of the longest
choice so far that is a prefix of `input` (strict `>` comparison). -/
def longestChoice (input : Str) : List Str → Nat → Nat
  | [], longest_match => longest_match
  | ch :: rest, longest_match =>
      longestChoice input rest
        (if ch.isPrefixOf input ∧ longest_match < utf8Len ch then utf8Len ch
         else longest_match)

/-- `MatcherToken::match_string`: match one token against the start of
`input`, returning the matched slice of `input` on success. -/
def MatcherToken.match_string : MatcherToken → Str → Option Str
  | .RawText text_to_match, input =>
      if text_to_match.isPrefixOf input then
        some (byteTake input (utf8Len text_to_match))
      else none
  | .OneOfText choices, input =>
      let longest_match := longestChoice input choices 0
      if 0 < longest_match then some (byteTake input longest_match) else none
  | .WildCard, input =>
      match input with
      | [] => none
      | first_char :: rest => some (byteTake (first_char :: rest) first_char.utf8Size)

/-- The `MatcherPatternParseError` enum. -/
inductive MatcherPatternParseError where
  | WildcardInOneOf
  | RecursiveOneOf
  | PipeNotAllowedInStandalone
  | ClosingParenInStandalone
  | Incomplete
deriving DecidableEq

/-- The `ParseMode` enum. -/
inductive ParseMode where
  | Standalone
  | OneOf
deriving DecidableEq

/-- The mutable state of `PatternParser::parse_into` at the top of each
iteration of its `for` loop: the accumulated tokens, the pending group
alternatives, the mode, the byte offset scanned so far, and the
`cur_tok_start` field of the `PatternParser` itself. -/
structure ParseState where
  mat_toks : List MatcherToken
  oneof_choices : List Str
  parse_mode : ParseMode
  bytes_so_far : Nat
  cur_tok_start : Option Nat
deriving DecidableEq

/-- `PatternParser::maybe_extract_token` (result value only; every call
site additionally resets `cur_tok_start` to `none`, which the embedding
performs at each call site). -/
def maybe_extract_token (pattern : Str) (cur_tok_start : Option Nat)
    (end_idx : Nat) : Option Str :=
  if end_idx = 0 then none
  else
    match cur_tok_start with
    | some start_idx => some (strSlice pattern start_idx end_idx)
    | none => none

/-- One iteration of the `for c in self.pattern.chars()` loop of
`PatternParser::parse_into`. -/
def parseStep (pattern : Str) (st : ParseState) (c : Char) :
    Except MatcherPatternParseError ParseState :=
  if c = '.' then
    if st.parse_mode = ParseMode.OneOf then .error .WildcardInOneOf
    else
      let toks :=
        match maybe_extract_token pattern st.cur_tok_start st.bytes_so_far with
        | some t => st.mat_toks ++ [MatcherToken.RawText t]
        | none => st.mat_toks
      .ok ⟨toks ++ [MatcherToken.WildCard], st.oneof_choices, st.parse_mode,
           st.bytes_so_far + c.utf8Size, none⟩
  else if c = '(' then
    if st.parse_mode = ParseMode.OneOf then .error .RecursiveOneOf
    else
      let toks :=
        match maybe_extract_token pattern st.cur_tok_start st.bytes_so_far with
        | some t => st.mat_toks ++ [MatcherToken.RawText t]
        | none => st.mat_toks
      .ok ⟨toks, st.oneof_choices, ParseMode.OneOf, st.bytes_so_far + c.utf8Size, none⟩
  else if c = '|' then
    if st.parse_mode = ParseMode.Standalone then .error .PipeNotAllowedInStandalone
    else
      let choices :=
        match maybe_extract_token pattern st.cur_tok_start st.bytes_so_far with
        | some t => st.oneof_choices ++ [t]
        | none => st.oneof_choices
      .ok ⟨st.mat_toks, choices, st.parse_mode, st.bytes_so_far + c.utf8Size, none⟩
  else if c = ')' then
    if st.parse_mode = ParseMode.Standalone then .error .ClosingParenInStandalone
    else
      let choices :=
        match maybe_extract_token pattern st.cur_tok_start st.bytes_so_far with
        | some t => st.oneof_choices ++ [t]
        | none => st.oneof_choices
      .ok ⟨st.mat_toks ++ [MatcherToken.OneOfText choices], [], ParseMode.Standalone,
           st.bytes_so_far + c.utf8Size, none⟩
  else
    let cur :=
      match st.cur_tok_start with
      | none => some st.bytes_so_far
      | some j => some j
    .ok ⟨st.mat_toks, st.oneof_choices, st.parse_mode, st.bytes_so_far + c.utf8Size, cur⟩

/-- The `for` loop of `PatternParser::parse_into`, over the remaining
characters of the pattern. -/
def parseLoop (pattern : Str) : ParseState → List Char →
    Except MatcherPatternParseError ParseState
  | st, [] => .ok st
  | st, c :: cs =>
    match parseStep pattern st c with
    | .error e => .error e
    | .ok st2 => parseLoop pattern st2 cs

/-- `PatternParser::parse_into` for a freshly constructed
`PatternParser::new(pattern)`. -/
def parse_into (pattern : Str) :
    Except MatcherPatternParseError (List MatcherToken) :=
  match parseLoop pattern ⟨[], [], ParseMode.Standalone, 0, none⟩ pattern with
  | .error e => .error e
  | .ok st =>
    if st.parse_mode = ParseMode.OneOf then .error .Incomplete
    else
      match maybe_extract_token pattern st.cur_tok_start st.bytes_so_far with
      | some t => .ok (st.mat_toks ++ [MatcherToken.RawText t])
      | none => .ok st.mat_toks

/-- The `Matcher<'s>` struct. -/
structure Matcher where
  text : Str
  tokens : List MatcherToken
  most_tokens_matched : Nat
deriving DecidableEq

/-- `Matcher::new`: parse the pattern; on success build a matcher with the
counter at 0, on failure discard the error and return `none`
(Rust `pattern.ok().map(...)`). -/
def Matcher.new (text : Str) : Option Matcher :=
  match parse_into text with
  | .ok tokens => some ⟨text, tokens, 0⟩
  | .error _ => none

/-- The `for` loop of `Matcher::match_string`: walk the tokens in order,
keeping the byte cursor `matched_till`, stopping at the first failure. -/
def matchLoop (string : Str) : List MatcherToken → Nat → List (MatcherToken × Str)
  | [], _ => []
  | tok :: rest, matched_till =>
    match tok.match_string (byteDrop string matched_till) with
    | some matched => (tok, matched) :: matchLoop string rest (matched_till + utf8Len matched)
    | none => []

/-- `Matcher::match_string`: returns the match trace together with the
matcher as left after the call (its counter updated to
`max most_tokens_matched result.len()`). -/
def Matcher.match_string (m : Matcher) (string : Str) :
    List (MatcherToken × Str) × Matcher :=
  let match_result := matchLoop string m.tokens 0
  (match_result, ⟨m.text, m.tokens, max m.most_tokens_matched match_result.length⟩)

/-- Proof-side restatement of the matching loop that recurses on the
remaining input instead of carrying a byte cursor; proved equal to
`matchLoop` below. -/
def matchTrace : List MatcherToken → Str → List (MatcherToken × Str)
  | [], _ => []
  | tok :: rest, rem =>
    match tok.match_string rem with
    | some matched => (tok, matched) :: matchTrace rest (byteDrop rem (utf8Len matched))
    | none => []

/-- Total byte length of the matched substrings of a match trace: the final
value of the `matched_till` cursor. -/
def traceCursor (res : List (MatcherToken × Str)) : Nat :=
  (res.map fun p => utf8Len p.2).sum

/-- A well-formed literal span: non-empty, and a contiguous substring of
the pattern. -/
def SpanOk (pattern t : Str) : Prop := t ≠ [] ∧ t <:+: pattern

/-- Every literal span held by a token is well-formed. -/
def TokOk (pattern : Str) : MatcherToken → Prop
  | .RawText t => SpanOk pattern t
  | .OneOfText chs => ∀ c ∈ chs, SpanOk pattern c
  | .WildCard => True

/-- Parser loop invariant: all emitted spans are well-formed, and an open
literal run starts strictly before the scan position, at a byte offset
that splits the pattern at a codepoint boundary with text remaining. -/
def StInv (pattern : Str) (st : ParseState) : Prop :=
  (∀ tok ∈ st.mat_toks, TokOk pattern tok) ∧
  (∀ c ∈ st.oneof_choices, SpanOk pattern c) ∧
  (∀ j, st.cur_tok_start = some j →
    j < st.bytes_so_far ∧ ∃ p1 p2, pattern = p1 ++ p2 ∧ utf8Len p1 = j ∧ p2 ≠ [])

/-- A small concrete matcher (two literal tokens) used to instantiate
universally quantified results on concrete inputs. -/
def mWit : Matcher :=
  ⟨['a', 'b'], [MatcherToken.RawText ['a'], MatcherToken.RawText ['b']], 0⟩

example : parse_into ['a', 'b', 'c', '(', 'd', '|', 'e', '|', 'f', ')', '.'] =
    .ok [MatcherToken.RawText ['a', 'b', 'c'],
         MatcherToken.OneOfText [['d'], ['e'], ['f']],
         MatcherToken.WildCard] := by rfl

example : parse_into ['(', ')'] = .ok [MatcherToken.OneOfText []] := by rfl

example : (Matcher.new ['a', 'b', 'c', '(', 'd', '|', 'e', '|', 'f', ')', '.']).map
    (fun m => (m.match_string ['a', 'b', 'c', 'd', '💪']).1) =
    some [(MatcherToken.RawText ['a', 'b', 'c'], ['a', 'b', 'c']),
          (MatcherToken.OneOfText [['d'], ['e'], ['f']], ['d']),
          (MatcherToken.WildCard, ['💪'])] := by decide

theorem utf8Len_nil : utf8Len [] = 0 := rfl

theorem utf8Len_cons (c : Char) (s : Str) :
    utf8Len (c :: s) = c.utf8Size + utf8Len s := by
  simp [utf8Len]

theorem utf8Len_append (a b : Str) :
    utf8Len (a ++ b) = utf8Len a + utf8Len b := by
  simp [utf8Len]

theorem utf8Len_eq_zero {s : Str} : utf8Len s = 0 ↔ s = [] := by
  cases s with
  | nil => simp [utf8Len]
  | cons c cs =>
    have := c.utf8Size_pos
    simp only [utf8Len_cons]
    constructor
    · intro h; omega
    · intro h; exact absurd h (List.cons_ne_nil c cs)

theorem utf8Len_pos {s : Str} (h : s ≠ []) : 0 < utf8Len s := by
  rcases Nat.eq_zero_or_pos (utf8Len s) with h0 | h0
  · exact absurd (utf8Len_eq_zero.mp h0) h
  · exact h0

theorem byteTake_zero (s : Str) : byteTake s 0 = [] := by
  cases s <;> simp [byteTake]

theorem byteDrop_zero (s : Str) : byteDrop s 0 = s := by
  cases s <;> simp [byteDrop]

theorem byteTake_utf8Len_append (a b : Str) :
    byteTake (a ++ b) (utf8Len a) = a := by
  induction a with
  | nil => simpa [utf8Len_nil] using byteTake_zero b
  | cons c cs ih =>
    have hc := c.utf8Size_pos
    simp only [List.cons_append, byteTake, utf8Len_cons]
    rw [if_neg (by omega), Nat.add_sub_cancel_left]
    show c :: byteTake (cs ++ b) (utf8Len cs) = c :: cs
    rw [ih]

theorem byteDrop_utf8Len_add (a b : Str) (k : Nat) :
    byteDrop (a ++ b) (utf8Len a + k) = byteDrop b k := by
  induction a with
  | nil => simp [utf8Len_nil]
  | cons c cs ih =>
    have hc := c.utf8Size_pos
    simp only [List.cons_append, byteDrop, utf8Len_cons]
    rw [if_neg (by omega)]
    have harith : c.utf8Size + utf8Len cs + k - c.utf8Size = utf8Len cs + k := by omega
    rw [harith]
    show byteDrop (cs ++ b) (utf8Len cs + k) = byteDrop b k
    exact ih

theorem byteDrop_utf8Len_append (a b : Str) :
    byteDrop (a ++ b) (utf8Len a) = b := by
  have := byteDrop_utf8Len_add a b 0
  simpa [byteDrop_zero] using this

theorem byteTake_isPre (s : Str) (n : Nat) : byteTake s n <+: s := by
  induction s generalizing n with
  | nil => simp [byteTake]
  | cons c cs ih =>
    simp only [byteTake]
    split
    · exact List.nil_prefix
    · obtain ⟨u, hu⟩ := ih (n - c.utf8Size)
      exact ⟨u, by rw [List.cons_append, hu]⟩

theorem byteDrop_isSuf (s : Str) (n : Nat) : byteDrop s n <:+ s := by
  induction s generalizing n with
  | nil => simp [byteDrop]
  | cons c cs ih =>
    simp only [byteDrop]
    split
    · exact List.suffix_refl _
    · exact (ih (n - c.utf8Size)).trans (List.suffix_cons c cs)

theorem byteTake_of_isPre {t s : Str} (h : t <+: s) :
    byteTake s (utf8Len t) = t := by
  obtain ⟨u, rfl⟩ := h
  exact byteTake_utf8Len_append t u

theorem byteDrop_of_isPre {t s : Str} (h : t <+: s) :
    byteDrop s (utf8Len t) = s.drop t.length := by
  obtain ⟨u, rfl⟩ := h
  rw [byteDrop_utf8Len_append, List.drop_left]

theorem utf8Len_le_of_isPre {t s : Str} (h : t <+: s) :
    utf8Len t ≤ utf8Len s := by
  obtain ⟨u, rfl⟩ := h
  simp [utf8Len_append]

theorem eq_of_isPre_utf8Len {t s input : Str} (ht : t <+: input)
    (hs : s <+: input) (hlen : utf8Len t = utf8Len s) : t = s := by
  rcases List.prefix_or_prefix_of_prefix ht hs with h | h
  · obtain ⟨u, rfl⟩ := h
    rw [utf8Len_append] at hlen
    have hu : u = [] := utf8Len_eq_zero.mp (by omega)
    simp [hu]
  · obtain ⟨u, rfl⟩ := h
    rw [utf8Len_append] at hlen
    have hu : u = [] := utf8Len_eq_zero.mp (by omega)
    simp [hu]

theorem strSlice_isInf (s : Str) (a b : Nat) : strSlice s a b <:+: s := by
  obtain ⟨u, hu⟩ := byteDrop_isSuf s a
  obtain ⟨v, hv⟩ := byteTake_isPre (byteDrop s a) (b - a)
  exact ⟨u, v, by rw [strSlice, List.append_assoc, hv]; exact hu⟩

theorem strSlice_ne_nil {pattern p1 p2 : Str} {j e : Nat}
    (hpat : pattern = p1 ++ p2) (hj : utf8Len p1 = j) (hp2 : p2 ≠ [])
    (hlt : j < e) : strSlice pattern j e ≠ [] := by
  subst hpat hj
  rw [strSlice, byteDrop_utf8Len_append]
  cases p2 with
  | nil => exact absurd rfl hp2
  | cons c cs =>
    simp only [byteTake]
    rw [if_neg (by omega)]
    exact List.cons_ne_nil _ _

theorem byteTake_eq_nil {s : Str} {n : Nat} (h : byteTake s n = [])
    (hn : 0 < n) : s = [] := by
  cases s with
  | nil => rfl
  | cons c cs =>
    simp only [byteTake] at h
    rw [if_neg (by omega)] at h
    exact absurd h (List.cons_ne_nil _ _)

theorem longestChoice_ge (input : Str) (chs : List Str) (acc : Nat) :
    acc ≤ longestChoice input chs acc := by
  induction chs generalizing acc with
  | nil => exact le_refl _
  | cons ch rest ih =>
    simp only [longestChoice]
    split
    · next hcond => exact le_trans hcond.2.le (ih _)
    · exact ih _

theorem longestChoice_cases (input : Str) (chs : List Str) (acc : Nat) :
    longestChoice input chs acc = acc ∨
    ∃ ch ∈ chs, ch <+: input ∧ longestChoice input chs acc = utf8Len ch := by
  induction chs generalizing acc with
  | nil => exact Or.inl rfl
  | cons ch rest ih =>
    simp only [longestChoice]
    split
    · next hcond =>
      rcases ih (utf8Len ch) with h | h
      · exact Or.inr ⟨ch, List.mem_cons_self ch rest,
          List.isPrefixOf_iff_prefix.mp hcond.1, h⟩
      · obtain ⟨ch2, hmem, hp, heq⟩ := h
        exact Or.inr ⟨ch2, List.mem_cons_of_mem _ hmem, hp, heq⟩
    · rcases ih acc with h | h
      · exact Or.inl h
      · obtain ⟨ch2, hmem, hp, heq⟩ := h
        exact Or.inr ⟨ch2, List.mem_cons_of_mem _ hmem, hp, heq⟩

theorem longestChoice_ub (input : Str) (chs : List Str) (acc : Nat) :
    ∀ ch ∈ chs, ch <+: input → utf8Len ch ≤ longestChoice input chs acc := by
  induction chs generalizing acc with
  | nil => intro ch hmem; exact absurd hmem (List.not_mem_nil ch)
  | cons ch0 rest ih =>
    intro ch hmem hp
    simp only [longestChoice]
    rcases List.mem_cons.mp hmem with rfl | hmem2
    · split
      · next hcond => exact longestChoice_ge input rest _
      · next hcond =>
        have hb : ch.isPrefixOf input := List.isPrefixOf_iff_prefix.mpr hp
        have hle : ¬ acc < utf8Len ch := fun hlt => hcond ⟨hb, hlt⟩
        exact le_trans (Nat.not_lt.mp hle) (longestChoice_ge input rest acc)
    · split
      · exact ih _ ch hmem2 hp
      · exact ih _ ch hmem2 hp

/-- Whatever a token matches is a slice from the front of its input. -/
theorem match_string_isPre (tok : MatcherToken) (input s : Str)
    (h : tok.match_string input = some s) : s <+: input := by
  cases tok with
  | RawText t =>
    simp only [MatcherToken.match_string] at h
    split at h
    · cases h; exact byteTake_isPre _ _
    · exact absurd h (Option.noConfusion)
  | OneOfText chs =>
    simp only [MatcherToken.match_string] at h
    split at h
    · cases h; exact byteTake_isPre _ _
    · exact absurd h (Option.noConfusion)
  | WildCard =>
    cases input with
    | nil => exact absurd h (Option.noConfusion)
    | cons c cs =>
      simp only [MatcherToken.match_string] at h
      cases h; exact byteTake_isPre _ _

/-- Characterization of a successful `OneOfText` match: it exists exactly
when some choice is a non-empty prefix of the input, and the returned
substring is a matching choice of maximal byte length; any matching choice
of that same length is the returned one. -/
theorem oneof_match_spec (choices : List Str) (input s : Str)
    (h : (MatcherToken.OneOfText choices).match_string input = some s) :
    s ∈ choices ∧ s <+: input ∧
    (∀ c ∈ choices, c <+: input → utf8Len c ≤ utf8Len s) ∧
    (∀ c ∈ choices, c <+: input → utf8Len c = utf8Len s → c = s) := by
  simp only [MatcherToken.match_string] at h
  split at h
  · next hpos =>
    cases h
    rcases longestChoice_cases input choices 0 with h0 | h0
    · rw [h0] at hpos; exact absurd hpos (lt_irrefl 0)
    · obtain ⟨ch, hmem, hp, heq⟩ := h0
      rw [heq, byteTake_of_isPre hp]
      refine ⟨hmem, hp, ?_, ?_⟩
      · intro c hc hcp
        have := longestChoice_ub input choices 0 c hc hcp
        omega
      · intro c hc hcp hlen
        exact eq_of_isPre_utf8Len hcp hp hlen
  · exact absurd h (Option.noConfusion)

/-- A `OneOfText` match succeeds exactly when some choice is a non-empty
prefix of the input. -/
theorem oneof_match_exists (choices : List Str) (input : Str) :
    (∃ s, (MatcherToken.OneOfText choices).match_string input = some s) ↔
    ∃ c ∈ choices, c <+: input ∧ c ≠ [] := by
  constructor
  · intro ⟨s, hs⟩
    obtain ⟨hmem, hp, hub, huniq⟩ := oneof_match_spec choices input s hs
    refine ⟨s, hmem, hp, ?_⟩
    intro hnil
    subst hnil
    simp only [MatcherToken.match_string] at hs
    split at hs
    · next hpos =>
      have hinput : input = [] :=
        byteTake_eq_nil (Option.some.inj hs) hpos
      rcases longestChoice_cases input choices 0 with h0 | h0
      · omega
      · obtain ⟨ch, hcmem, hcp, heq⟩ := h0
        have hch : ch = [] := by
          subst hinput
          exact List.prefix_nil.mp hcp
        rw [hch] at heq
        rw [heq] at hpos
        exact absurd hpos (lt_irrefl 0)
    · exact absurd hs (Option.noConfusion)
  · intro ⟨c, hmem, hp, hne⟩
    have hpos : 0 < utf8Len c := utf8Len_pos hne
    have hub := longestChoice_ub input choices 0 c hmem hp
    refine ⟨byteTake input (longestChoice input choices 0), ?_⟩
    simp only [MatcherToken.match_string]
    rw [if_pos (by omega)]

theorem matchLoop_eq_trace (toks : List MatcherToken) (a rest : Str) :
    matchLoop (a ++ rest) toks (utf8Len a) = matchTrace toks rest := by
  induction toks generalizing a rest with
  | nil => rfl
  | cons tok rtoks ih =>
    simp only [matchLoop, matchTrace, byteDrop_utf8Len_append]
    cases hm : tok.match_string rest with
    | none => rfl
    | some matched =>
      obtain ⟨rest2, hr2⟩ := match_string_isPre tok rest matched hm
      have h1 : byteDrop rest (utf8Len matched) = rest2 := by
        rw [← hr2, byteDrop_utf8Len_append]
      have h2 : matchLoop (a ++ rest) rtoks (utf8Len a + utf8Len matched) =
          matchTrace rtoks rest2 := by
        have hsplit : a ++ rest = (a ++ matched) ++ rest2 := by
          rw [List.append_assoc, hr2]
        rw [hsplit, ← utf8Len_append]
        exact ih (a ++ matched) rest2
      dsimp only
      rw [h1, h2]

theorem matchLoop_zero (toks : List MatcherToken) (s : Str) :
    matchLoop s toks 0 = matchTrace toks s := by
  have h := matchLoop_eq_trace toks [] s
  simpa [utf8Len_nil] using h

theorem matchTrace_length_le (toks : List MatcherToken) (rem : Str) :
    (matchTrace toks rem).length ≤ toks.length := by
  induction toks generalizing rem with
  | nil => exact le_refl _
  | cons tok rtoks ih =>
    simp only [matchTrace]
    cases tok.match_string rem with
    | none => simp
    | some matched =>
      simp only [List.length_cons]
      exact Nat.succ_le_succ (ih _)

theorem matchTrace_map_fst (toks : List MatcherToken) (rem : Str) :
    (matchTrace toks rem).map Prod.fst =
      toks.take (matchTrace toks rem).length := by
  induction toks generalizing rem with
  | nil => rfl
  | cons tok rtoks ih =>
    simp only [matchTrace]
    cases tok.match_string rem with
    | none => rfl
    | some matched =>
      simp only [List.map_cons, List.length_cons, List.take_succ_cons]
      rw [ih]

theorem traceCursor_nil : traceCursor [] = 0 := rfl

theorem traceCursor_cons (p : MatcherToken × Str) (res : List (MatcherToken × Str)) :
    traceCursor (p :: res) = utf8Len p.2 + traceCursor res := by
  simp [traceCursor]

theorem traceCursor_append (a b : List (MatcherToken × Str)) :
    traceCursor (a ++ b) = traceCursor a + traceCursor b := by
  simp [traceCursor]

/-- The concatenation of the matched substrings of a trace is a prefix of
the input the trace was produced from. -/
theorem matchTrace_join_isPre (toks : List MatcherToken) (rem : Str) :
    ((matchTrace toks rem).map Prod.snd).flatten <+: rem := by
  induction toks generalizing rem with
  | nil => exact List.nil_prefix
  | cons tok rtoks ih =>
    simp only [matchTrace]
    cases hm : tok.match_string rem with
    | none => exact List.nil_prefix
    | some matched =>
      obtain ⟨rest2, hr2⟩ := match_string_isPre tok rem matched hm
      have h1 : byteDrop rem (utf8Len matched) = rest2 := by
        rw [← hr2, byteDrop_utf8Len_append]
      simp only [List.map_cons, List.flatten_cons, h1]
      obtain ⟨u, hu⟩ := ih rest2
      exact ⟨u, by rw [List.append_assoc, hu, hr2]⟩

theorem traceCursor_eq_flatten (res : List (MatcherToken × Str)) :
    traceCursor res = utf8Len ((res.map Prod.snd).flatten) := by
  induction res with
  | nil => rfl
  | cons p ps ih =>
    simp only [traceCursor_cons, List.map_cons, List.flatten_cons, utf8Len_append, ih]

/-- Each entry of the trace is the successful local match of its token
against the input as seen from the cursor position at that entry. -/
theorem matchTrace_getD (toks : List MatcherToken) (rem : Str) (i : Nat)
    (h : i < (matchTrace toks rem).length) :
    (((matchTrace toks rem).getD i (MatcherToken.WildCard, [])).1).match_string
        (byteDrop rem (traceCursor ((matchTrace toks rem).take i))) =
      some (((matchTrace toks rem).getD i (MatcherToken.WildCard, [])).2) := by
  induction toks generalizing rem i with
  | nil => exact absurd h (by simp [matchTrace])
  | cons tok rtoks ih =>
    cases hm : tok.match_string rem with
    | none =>
      rw [show matchTrace (tok :: rtoks) rem = [] by simp [matchTrace, hm]] at h
      exact absurd h (by simp)
    | some matched =>
      have htr : matchTrace (tok :: rtoks) rem =
          (tok, matched) :: matchTrace rtoks (byteDrop rem (utf8Len matched)) := by
        simp [matchTrace, hm]
      rw [htr] at h ⊢
      obtain ⟨rest2, hr2⟩ := match_string_isPre tok rem matched hm
      have h1 : byteDrop rem (utf8Len matched) = rest2 := by
        rw [← hr2, byteDrop_utf8Len_append]
      cases i with
      | zero =>
        simp only [List.getD_cons_zero, List.take_zero, traceCursor_nil, byteDrop_zero]
        exact hm
      | succ j =>
        rw [h1] at h ⊢
        simp only [List.getD_cons_succ, List.take_succ_cons, traceCursor_cons]
        have hdrop : byteDrop rem (utf8Len matched +
            traceCursor ((matchTrace rtoks rest2).take j)) =
            byteDrop rest2 (traceCursor ((matchTrace rtoks rest2).take j)) := by
          rw [← hr2, byteDrop_utf8Len_add]
        rw [hdrop]
        exact ih rest2 j (by simpa using h)

/-- If the trace is shorter than the token list, the next token fails to
match at the final cursor position. -/
theorem matchTrace_fail (toks : List MatcherToken) (rem : Str)
    (h : (matchTrace toks rem).length < toks.length) :
    (toks.getD (matchTrace toks rem).length MatcherToken.WildCard).match_string
        (byteDrop rem (traceCursor (matchTrace toks rem))) = none := by
  induction toks generalizing rem with
  | nil => exact absurd h (by simp)
  | cons tok rtoks ih =>
    cases hm : tok.match_string rem with
    | none =>
      have htr : matchTrace (tok :: rtoks) rem = [] := by simp [matchTrace, hm]
      rw [htr]
      simp only [List.length_nil, List.getD_cons_zero, traceCursor_nil, byteDrop_zero]
      exact hm
    | some matched =>
      have htr : matchTrace (tok :: rtoks) rem =
          (tok, matched) :: matchTrace rtoks (byteDrop rem (utf8Len matched)) := by
        simp [matchTrace, hm]
      rw [htr] at h ⊢
      obtain ⟨rest2, hr2⟩ := match_string_isPre tok rem matched hm
      have h1 : byteDrop rem (utf8Len matched) = rest2 := by
        rw [← hr2, byteDrop_utf8Len_append]
      rw [h1] at h ⊢
      have h2 : (matchTrace rtoks rest2).length < rtoks.length := by
        simpa using h
      simp only [List.length_cons, List.getD_cons_succ, traceCursor_cons]
      have hdrop : byteDrop rem (utf8Len matched +
          traceCursor (matchTrace rtoks rest2)) =
          byteDrop rest2 (traceCursor (matchTrace rtoks rest2)) := by
        rw [← hr2, byteDrop_utf8Len_add]
      rw [hdrop]
      exact ih rest2 h2

theorem forall_mem_append_singleton {α : Type} {P : α → Prop} {l : List α} {y : α}
    (h : ∀ x ∈ l, P x) (h2 : P y) : ∀ x ∈ l ++ [y], P x := by
  intro x hx
  rcases List.mem_append.mp hx with hx | hx
  · exact h x hx
  · rw [List.mem_singleton.mp hx]
    exact h2

/-- Anything `maybe_extract_token` returns under the parser invariant on
`cur_tok_start` is a well-formed span. -/
theorem maybe_extract_spanOk (pattern : Str) (cur : Option Nat) (e : Nat)
    (hcur : ∀ j, cur = some j →
      j < e ∧ ∃ p1 p2, pattern = p1 ++ p2 ∧ utf8Len p1 = j ∧ p2 ≠ [])
    {t : Str} (h : maybe_extract_token pattern cur e = some t) :
    SpanOk pattern t := by
  unfold maybe_extract_token at h
  split at h
  · exact Option.noConfusion h
  · cases cur with
    | none => exact Option.noConfusion h
    | some j =>
      cases h
      obtain ⟨hlt, p1, p2, hp, hlen, hne⟩ := hcur j rfl
      exact ⟨strSlice_ne_nil hp hlen hne hlt, strSlice_isInf pattern j e⟩

/-- One parser step preserves the invariant and advances the byte count by
the width of the consumed character. -/
theorem parseStep_inv (pattern consumed rest : Str) (c : Char)
    (hpat : pattern = consumed ++ c :: rest)
    (st : ParseState) (hbytes : st.bytes_so_far = utf8Len consumed)
    (hinv : StInv pattern st) (st2 : ParseState)
    (h : parseStep pattern st c = .ok st2) :
    StInv pattern st2 ∧ st2.bytes_so_far = utf8Len (consumed ++ [c]) := by
  obtain ⟨htoks, hchoices, hcur⟩ := hinv
  have hsize := c.utf8Size_pos
  have hext : ∀ t, maybe_extract_token pattern st.cur_tok_start st.bytes_so_far = some t →
      SpanOk pattern t := fun t ht =>
    maybe_extract_spanOk pattern st.cur_tok_start st.bytes_so_far hcur ht
  have hb2 : st.bytes_so_far + c.utf8Size = utf8Len (consumed ++ [c]) := by
    rw [hbytes, utf8Len_append, utf8Len_cons, utf8Len_nil]
    omega
  have hnocur : ∀ j : Nat, (none : Option Nat) = some j →
      j < st.bytes_so_far + c.utf8Size ∧
      ∃ p1 p2, pattern = p1 ++ p2 ∧ utf8Len p1 = j ∧ p2 ≠ [] :=
    fun j hj => Option.noConfusion hj
  simp only [parseStep] at h
  split at h
  · -- c = '.'
    split at h
    · exact Except.noConfusion h
    · split at h
      · next t hmx =>
        cases h
        exact ⟨⟨forall_mem_append_singleton
            (forall_mem_append_singleton htoks (hext t hmx)) trivial,
          hchoices, hnocur⟩, hb2⟩
      · cases h
        exact ⟨⟨forall_mem_append_singleton htoks trivial, hchoices, hnocur⟩, hb2⟩
  · split at h
    · -- c = '('
      split at h
      · exact Except.noConfusion h
      · split at h
        · next t hmx =>
          cases h
          exact ⟨⟨forall_mem_append_singleton htoks (hext t hmx),
            hchoices, hnocur⟩, hb2⟩
        · cases h
          exact ⟨⟨htoks, hchoices, hnocur⟩, hb2⟩
    · split at h
      · -- c = '|'
        split at h
        · exact Except.noConfusion h
        · split at h
          · next t hmx =>
            cases h
            exact ⟨⟨htoks, forall_mem_append_singleton hchoices (hext t hmx),
              hnocur⟩, hb2⟩
          · cases h
            exact ⟨⟨htoks, hchoices, hnocur⟩, hb2⟩
      · split at h
        · -- c = ')'
          split at h
          · exact Except.noConfusion h
          · split at h
            · next t hmx =>
              cases h
              refine ⟨⟨forall_mem_append_singleton htoks ?_, ?_, hnocur⟩, hb2⟩
              · exact forall_mem_append_singleton hchoices (hext t hmx)
              · intro x hx
                exact absurd hx (List.not_mem_nil x)
            · cases h
              refine ⟨⟨forall_mem_append_singleton htoks hchoices, ?_, hnocur⟩, hb2⟩
              · intro x hx
                exact absurd hx (List.not_mem_nil x)
        · -- any other character
          cases h
          refine ⟨⟨htoks, hchoices, ?_⟩, hb2⟩
          intro j hj
          dsimp only at hj ⊢
          cases hcs : st.cur_tok_start with
          | none =>
            rw [hcs] at hj
            cases hj
            exact ⟨by omega, consumed, c :: rest, hpat, hbytes.symm, List.cons_ne_nil c rest⟩
          | some j0 =>
            rw [hcs] at hj
            obtain ⟨hlt, p1, p2, hp, hlen, hne⟩ := hcur j0 hcs
            cases hj
            exact ⟨by omega, p1, p2, hp, hlen, hne⟩

/-- The parser loop preserves the invariant. -/
theorem parseLoop_inv (pattern : Str) (remaining : Str) (consumed : Str)
    (hpat : pattern = consumed ++ remaining)
    (st : ParseState) (hbytes : st.bytes_so_far = utf8Len consumed)
    (hinv : StInv pattern st) (st2 : ParseState)
    (h : parseLoop pattern st remaining = .ok st2) :
    StInv pattern st2 := by
  induction remaining generalizing consumed st with
  | nil =>
    simp only [parseLoop] at h
    cases h
    exact hinv
  | cons c rest ih =>
    simp only [parseLoop] at h
    cases hstep : parseStep pattern st c with
    | error e =>
      rw [hstep] at h
      exact Except.noConfusion h
    | ok st1 =>
      rw [hstep] at h
      obtain ⟨hinv1, hbytes1⟩ :=
        parseStep_inv pattern consumed rest c hpat st hbytes hinv st1 hstep
      exact ih (consumed ++ [c]) (by rw [List.append_assoc]; exact hpat) st1 hbytes1 hinv1 h

/-- All spans of a successfully compiled token sequence are well-formed:
non-empty and contiguous substrings of the pattern. -/
theorem parse_into_spans (pattern : Str) (toks : List MatcherToken)
    (h : parse_into pattern = .ok toks) :
    ∀ tok ∈ toks, TokOk pattern tok := by
  unfold parse_into at h
  cases hloop : parseLoop pattern ⟨[], [], ParseMode.Standalone, 0, none⟩ pattern with
  | error e =>
    rw [hloop] at h
    exact Except.noConfusion h
  | ok st =>
    rw [hloop] at h
    have hinv0 : StInv pattern ⟨[], [], ParseMode.Standalone, 0, none⟩ := by
      refine ⟨?_, ?_, ?_⟩
      · intro tok htk
        exact absurd htk (List.not_mem_nil tok)
      · intro x hx
        exact absurd hx (List.not_mem_nil x)
      · intro j hj
        exact Option.noConfusion hj
    obtain ⟨htoks, hchoices, hcur⟩ :=
      parseLoop_inv pattern pattern [] rfl _ rfl hinv0 st hloop
    dsimp only at h
    split at h
    · exact Except.noConfusion h
    · cases hmx : maybe_extract_token pattern st.cur_tok_start st.bytes_so_far with
      | some t =>
        rw [hmx] at h
        cases h
        exact forall_mem_append_singleton htoks
          (maybe_extract_spanOk pattern st.cur_tok_start st.bytes_so_far hcur hmx)
      | none =>
        rw [hmx] at h
        cases h
        exact htoks

/-- Claim C1: for every `OneOfText` token and every input, a match exists
exactly when some alternative is a non-empty prefix of the remaining
input; the returned substring is a matching alternative of maximal byte
length, and any alternative matching with that same byte length is the
returned one (so the first alternative in list order to reach the maximum
wins ties).  Concretely, `"(ab|a)"` against `"abx"` matches `"ab"`. -/
theorem C1_oneof_longest (choices : List Str) (input : Str) :
    ((∃ s, (MatcherToken.OneOfText choices).match_string input = some s) ↔
      ∃ c ∈ choices, c <+: input ∧ c ≠ []) ∧
    (∀ s, (MatcherToken.OneOfText choices).match_string input = some s →
      s ∈ choices ∧ s <+: input ∧
      (∀ c ∈ choices, c <+: input → utf8Len c ≤ utf8Len s) ∧
      (∀ c ∈ choices, c <+: input → utf8Len c = utf8Len s → c = s)) ∧
    (MatcherToken.OneOfText [['a', 'b'], ['a']]).match_string ['a', 'b', 'x'] =
      some ['a', 'b'] ∧
    (Matcher.new ['(', 'a', 'b', '|', 'a', ')']).map
        (fun m => (m.match_string ['a', 'b', 'x']).1) =
      some [(MatcherToken.OneOfText [['a', 'b'], ['a']], ['a', 'b'])] :=
  ⟨oneof_match_exists choices input,
   fun s hs => oneof_match_spec choices input s hs, by decide, by decide⟩

theorem C1_oneof_longest_witness :
    (['a', 'b'] : Str) ∈ [['a', 'b'], ['a']] ∧
    (['a', 'b'] : Str) <+: ['a', 'b', 'x'] ∧
    (∀ c ∈ [['a', 'b'], ['a']], c <+: (['a', 'b', 'x'] : Str) →
      utf8Len c ≤ utf8Len ['a', 'b']) ∧
    (∀ c ∈ [['a', 'b'], ['a']], c <+: (['a', 'b', 'x'] : Str) →
      utf8Len c = utf8Len ['a', 'b'] → c = ['a', 'b']) :=
  (C1_oneof_longest [['a', 'b'], ['a']] ['a', 'b', 'x']).2.1 ['a', 'b'] (by decide)

/-- Claim C2: `Matcher::match_string` is total (no error outcome exists);
it walks the tokens in order, records for each successfully matched token
the pair of that token and its matched substring, and stops at the first
token whose local match at the current cursor fails, which therefore
returns a possibly empty, possibly partial trace. -/
theorem C2_match_partial_trace (m : Matcher) (s : Str) :
    ((m.match_string s).1).length ≤ m.tokens.length ∧
    ((m.match_string s).1).map Prod.fst =
      m.tokens.take ((m.match_string s).1).length ∧
    (∀ i, i < ((m.match_string s).1).length →
      ((((m.match_string s).1).getD i (MatcherToken.WildCard, [])).1).match_string
          (byteDrop s (traceCursor (((m.match_string s).1).take i))) =
        some ((((m.match_string s).1).getD i (MatcherToken.WildCard, [])).2)) ∧
    (((m.match_string s).1).length < m.tokens.length →
      (m.tokens.getD ((m.match_string s).1).length
          MatcherToken.WildCard).match_string
          (byteDrop s (traceCursor ((m.match_string s).1))) = none) := by
  have hms : (m.match_string s).1 = matchTrace m.tokens s := matchLoop_zero m.tokens s
  rw [hms]
  exact ⟨matchTrace_length_le _ _, matchTrace_map_fst _ _,
    fun i hi => matchTrace_getD _ _ i hi, fun hlt => matchTrace_fail _ _ hlt⟩

theorem C2_match_partial_trace_witness :
    ((mWit.match_string ['a', 'c']).1).length ≤ mWit.tokens.length ∧
    ((mWit.match_string ['a', 'c']).1).map Prod.fst =
      mWit.tokens.take ((mWit.match_string ['a', 'c']).1).length ∧
    ((((mWit.match_string ['a', 'c']).1).getD 0 (MatcherToken.WildCard, [])).1).match_string
        (byteDrop ['a', 'c'] (traceCursor (((mWit.match_string ['a', 'c']).1).take 0))) =
      some ((((mWit.match_string ['a', 'c']).1).getD 0 (MatcherToken.WildCard, [])).2) ∧
    (mWit.tokens.getD ((mWit.match_string ['a', 'c']).1).length
        MatcherToken.WildCard).match_string
        (byteDrop ['a', 'c'] (traceCursor ((mWit.match_string ['a', 'c']).1))) = none := by
  have h := C2_match_partial_trace mWit ['a', 'c']
  exact ⟨h.1, h.2.1, h.2.2.1 0 (by decide), h.2.2.2 (by decide)⟩

/-- Claim C3: the five malformed example patterns fail with exactly the
specified parse errors, and in general any scan that ends while still in
`OneOf` mode (an unterminated group) fails with `Incomplete`. -/
theorem C3_parse_errors :
    parse_into ['(', 'a'] = .error MatcherPatternParseError.Incomplete ∧
    parse_into ['a', ')'] = .error MatcherPatternParseError.ClosingParenInStandalone ∧
    parse_into ['a', '|', 'b'] = .error MatcherPatternParseError.PipeNotAllowedInStandalone ∧
    parse_into ['(', 'a', '(', 'b', ')', ')'] = .error MatcherPatternParseError.RecursiveOneOf ∧
    parse_into ['(', 'a', '.', ')'] = .error MatcherPatternParseError.WildcardInOneOf ∧
    (∀ (pattern : Str) (st : ParseState),
      parseLoop pattern ⟨[], [], ParseMode.Standalone, 0, none⟩ pattern = .ok st →
      st.parse_mode = ParseMode.OneOf →
      parse_into pattern = .error MatcherPatternParseError.Incomplete) := by
  refine ⟨rfl, rfl, rfl, rfl, rfl, ?_⟩
  intro pattern st hloop hmode
  unfold parse_into
  rw [hloop]
  dsimp only
  rw [if_pos hmode]

theorem C3_parse_errors_witness :
    parse_into ['(', 'a'] = .error MatcherPatternParseError.Incomplete :=
  C3_parse_errors.2.2.2.2.2 ['(', 'a'] ⟨[], [], ParseMode.OneOf, 2, some 1⟩ rfl rfl

/-- Claim C4 is false as stated: the pattern `"()"` compiles successfully,
and its single `OneOfText` token has an empty list of choices. -/
theorem C4_counterexample :
    parse_into ['(', ')'] = .ok [MatcherToken.OneOfText []] ∧
    Matcher.new ['(', ')'] = some ⟨['(', ')'], [MatcherToken.OneOfText []], 0⟩ :=
  ⟨rfl, rfl⟩

/-- Claim C4 (amended): in a successfully compiled token sequence, every
alternative inside every `OneOfText` token is a non-empty string; the
list of alternatives itself may however be empty, as for `"()"`. -/
theorem C4_amended (pattern : Str) (toks : List MatcherToken)
    (choices : List Str) (c : Str)
    (h : parse_into pattern = .ok toks)
    (hmem : MatcherToken.OneOfText choices ∈ toks)
    (hc : c ∈ choices) : c ≠ [] :=
  (parse_into_spans pattern toks h (MatcherToken.OneOfText choices) hmem c hc).1

theorem C4_amended_witness : (['a'] : Str) ≠ [] :=
  C4_amended ['(', 'a', ')'] [MatcherToken.OneOfText [['a']]] [['a']] ['a']
    rfl (by decide) (by decide)

/-- Claim C5: a freshly compiled matcher has `most_tokens_matched = 0`;
one `match_string` call updates it to the maximum of its previous value
and the length of the returned trace while leaving the text and tokens
unchanged (no other operation exists that touches it), so across any
sequence of successive calls the counter is monotonically non-decreasing. -/
theorem C5_counter_monotone :
    (∀ p m, Matcher.new p = some m → m.most_tokens_matched = 0) ∧
    (∀ (m : Matcher) (s : Str),
      ((m.match_string s).2).most_tokens_matched =
        max m.most_tokens_matched ((m.match_string s).1).length ∧
      m.most_tokens_matched ≤ ((m.match_string s).2).most_tokens_matched ∧
      ((m.match_string s).2).text = m.text ∧
      ((m.match_string s).2).tokens = m.tokens) ∧
    (∀ (m : Matcher) (inputs : List Str),
      m.most_tokens_matched ≤
        (inputs.foldl (fun mm s => (mm.match_string s).2) m).most_tokens_matched) := by
  refine ⟨?_, ?_, ?_⟩
  · intro p m h
    unfold Matcher.new at h
    cases hp : parse_into p with
    | ok toks =>
      rw [hp] at h
      cases h
      rfl
    | error e =>
      rw [hp] at h
      exact Option.noConfusion h
  · intro m s
    exact ⟨rfl, le_max_left _ _, rfl, rfl⟩
  · intro m inputs
    induction inputs generalizing m with
    | nil => exact le_refl _
    | cons s ss ih =>
      simp only [List.foldl_cons]
      exact le_trans (le_max_left _ _) (ih ((m.match_string s).2))

theorem C5_counter_monotone_witness :
    (Matcher.mk ['a'] [MatcherToken.RawText ['a']] 0).most_tokens_matched = 0 ∧
    ((mWit.match_string ['a', 'c']).2).most_tokens_matched =
      max mWit.most_tokens_matched ((mWit.match_string ['a', 'c']).1).length ∧
    mWit.most_tokens_matched ≤ ((mWit.match_string ['a', 'c']).2).most_tokens_matched ∧
    ((mWit.match_string ['a', 'c']).2).text = mWit.text ∧
    ((mWit.match_string ['a', 'c']).2).tokens = mWit.tokens ∧
    mWit.most_tokens_matched ≤
      (([['a', 'c'], ['a', 'b']] : List Str).foldl
        (fun mm s => (mm.match_string s).2) mWit).most_tokens_matched :=
  ⟨C5_counter_monotone.1 ['a'] (Matcher.mk ['a'] [MatcherToken.RawText ['a']] 0) rfl,
   (C5_counter_monotone.2.1 mWit ['a', 'c']).1,
   (C5_counter_monotone.2.1 mWit ['a', 'c']).2.1,
   (C5_counter_monotone.2.1 mWit ['a', 'c']).2.2.1,
   (C5_counter_monotone.2.1 mWit ['a', 'c']).2.2.2,
   C5_counter_monotone.2.2 mWit [['a', 'c'], ['a', 'b']]⟩

/-- Claim C6: a `WildCard` token matches exactly when the remaining input
is non-empty; the matched substring is precisely the first codepoint of
the remaining input (whose byte length is that codepoint's full UTF-8
width), and removing it from the input drops exactly that codepoint. -/
theorem C6_wildcard (input : Str) :
    ((∃ s, MatcherToken.WildCard.match_string input = some s) ↔ input ≠ []) ∧
    (input = [] → MatcherToken.WildCard.match_string input = none) ∧
    (∀ c rest, input = c :: rest →
      MatcherToken.WildCard.match_string input = some [c] ∧
      utf8Len [c] = c.utf8Size ∧
      byteDrop input (utf8Len [c]) = rest) := by
  have hcons : ∀ (c : Char) (rest : Str),
      MatcherToken.WildCard.match_string (c :: rest) = some [c] ∧
      utf8Len [c] = c.utf8Size ∧
      byteDrop (c :: rest) (utf8Len [c]) = rest := by
    intro c rest
    have hpos := c.utf8Size_pos
    have hlen : utf8Len [c] = c.utf8Size := by
      rw [utf8Len_cons, utf8Len_nil]
      omega
    refine ⟨?_, hlen, ?_⟩
    · show some (byteTake (c :: rest) c.utf8Size) = some [c]
      have ht : byteTake (c :: rest) c.utf8Size = [c] := by
        simp only [byteTake]
        rw [if_neg (by omega), Nat.sub_self, byteTake_zero]
      rw [ht]
    · rw [hlen]
      simp only [byteDrop]
      rw [if_neg (by omega), Nat.sub_self, byteDrop_zero]
  refine ⟨?_, ?_, ?_⟩
  · constructor
    · intro ⟨s, hs⟩ hnil
      rw [hnil] at hs
      exact Option.noConfusion hs
    · intro hne
      cases input with
      | nil => exact absurd rfl hne
      | cons c rest => exact ⟨[c], (hcons c rest).1⟩
  · intro h
    rw [h]
    rfl
  · intro c rest h
    rw [h]
    exact hcons c rest

theorem C6_wildcard_witness :
    MatcherToken.WildCard.match_string ['é', 'x'] = some ['é'] ∧
    utf8Len ['é'] = 'é'.utf8Size ∧
    byteDrop ['é', 'x'] (utf8Len ['é']) = ['x'] ∧
    MatcherToken.WildCard.match_string ([] : Str) = none :=
  ⟨((C6_wildcard ['é', 'x']).2.2 'é' ['x'] rfl).1,
   ((C6_wildcard ['é', 'x']).2.2 'é' ['x'] rfl).2.1,
   ((C6_wildcard ['é', 'x']).2.2 'é' ['x'] rfl).2.2,
   (C6_wildcard []).2.1 rfl⟩

/-- Claim C7 is false as stated: the public entry point `Matcher::new`
does not return the typed parse error to its caller — two patterns
failing with different `MatcherPatternParseError`s produce the identical
public result `none`. -/
theorem C7_counterexample :
    parse_into ['(', 'a'] = .error MatcherPatternParseError.Incomplete ∧
    parse_into ['a', ')'] = .error MatcherPatternParseError.ClosingParenInStandalone ∧
    Matcher.new ['(', 'a'] = none ∧
    Matcher.new ['a', ')'] = none ∧
    Matcher.new ['(', 'a'] = Matcher.new ['a', ')'] :=
  ⟨rfl, rfl, rfl, rfl, rfl⟩

/-- Claim C7 (amended): compilation is total and never partially
succeeds: for every pattern, either the parse succeeds and `Matcher::new`
returns a well-formed matcher holding the pattern, all its tokens and a
zero counter, or the parse fails with a specific typed error, which
`parse_into` returns to its immediate caller `Matcher::new`, and the
public result is `none` (the error kind itself is discarded, not
propagated); malformed input never causes a crash. -/
theorem C7_amended (pattern : Str) :
    (∃ toks, parse_into pattern = .ok toks ∧
      Matcher.new pattern = some ⟨pattern, toks, 0⟩) ∨
    (∃ e, parse_into pattern = .error e ∧ Matcher.new pattern = none) := by
  cases hp : parse_into pattern with
  | ok toks =>
    refine Or.inl ⟨toks, rfl, ?_⟩
    unfold Matcher.new
    rw [hp]
  | error e =>
    refine Or.inr ⟨e, rfl, ?_⟩
    unfold Matcher.new
    rw [hp]

/-- Claim C8: matching is prefix-bounded: for every matcher, input and
index, the total byte length of the matched substrings of the first `i`
trace entries never exceeds the byte length of the input. -/
theorem C8_prefix_bounded (m : Matcher) (s : Str) (i : Nat) :
    traceCursor (((m.match_string s).1).take i) ≤ utf8Len s := by
  have hms : (m.match_string s).1 = matchTrace m.tokens s := matchLoop_zero m.tokens s
  rw [hms]
  have hsplit := List.take_append_drop i (matchTrace m.tokens s)
  have h1 : traceCursor ((matchTrace m.tokens s).take i) ≤
      traceCursor (matchTrace m.tokens s) := by
    calc traceCursor ((matchTrace m.tokens s).take i)
        ≤ traceCursor ((matchTrace m.tokens s).take i) +
            traceCursor ((matchTrace m.tokens s).drop i) := Nat.le_add_right _ _
      _ = traceCursor (matchTrace m.tokens s) := by
          rw [← traceCursor_append, hsplit]
  have h2 : traceCursor (matchTrace m.tokens s) ≤ utf8Len s := by
    rw [traceCursor_eq_flatten]
    exact utf8Len_le_of_isPre (matchTrace_join_isPre m.tokens s)
  exact le_trans h1 h2

/-- Claim C9: the empty pattern compiles to an empty token sequence, and
a matcher with zero tokens produces the empty trace on every input. -/
theorem C9_empty_pattern :
    parse_into [] = .ok [] ∧
    Matcher.new [] = some ⟨[], [], 0⟩ ∧
    (∀ (m : Matcher) (s : Str), m.tokens = [] → (m.match_string s).1 = []) := by
  refine ⟨rfl, rfl, ?_⟩
  intro m s h
  show matchLoop s m.tokens 0 = []
  rw [h]
  rfl

theorem C9_empty_pattern_witness :
    ((Matcher.mk [] [] 0).match_string ['x']).1 = [] :=
  C9_empty_pattern.2.2 (Matcher.mk [] [] 0) ['x'] rfl

/-- Claim C10: every literal span a successful compilation emits — the
text of every `RawText` token and every alternative of every `OneOfText`
token — is a non-empty contiguous substring of the pattern; empty runs
between consecutive delimiters are dropped, as in `"(a||b)"` and
`"(|a)"`. -/
theorem C10_spans (pattern : Str) (toks : List MatcherToken)
    (h : parse_into pattern = .ok toks) :
    (∀ t, MatcherToken.RawText t ∈ toks → t ≠ [] ∧ t <:+: pattern) ∧
    (∀ choices, MatcherToken.OneOfText choices ∈ toks →
      ∀ c ∈ choices, c ≠ [] ∧ c <:+: pattern) ∧
    parse_into ['(', 'a', '|', '|', 'b', ')'] =
      .ok [MatcherToken.OneOfText [['a'], ['b']]] ∧
    parse_into ['(', '|', 'a', ')'] = .ok [MatcherToken.OneOfText [['a']]] := by
  refine ⟨?_, ?_, rfl, rfl⟩
  · intro t hm
    exact parse_into_spans pattern toks h (MatcherToken.RawText t) hm
  · intro choices hm c hc
    exact parse_into_spans pattern toks h (MatcherToken.OneOfText choices) hm c hc

theorem C10_spans_witness :
    (['a'] : Str) ≠ [] ∧ (['a'] : Str) <:+: ['(', 'a', ')'] :=
  (C10_spans ['(', 'a', ')'] [MatcherToken.OneOfText [['a']]] rfl).2.1
    [['a']] (by decide) ['a'] (by decide)

end PatternMatch
